import Mathlib

/-!
Shallow embedding of `lib/orgmode.js` (node-orgmode): the outline document
model and query engine.  JavaScript arrays become `List`, JS numbers used as
indices/levels become `Int`/`Nat`, JS object field reads that may hit
`undefined` become `Option`, and a thrown `TypeError` becomes `Except.error`.
-/

namespace Orgmode

/-- JS array element access `a[j]` where `j` may be any integer: out-of-range
or negative indices yield `undefined`, modelled as `none`. -/
def jsIndex {α : Type} (l : List α) (j : Int) : Option α :=
  if j < 0 then none else l.get? j.toNat

/-- One heading of the AST: `{ title, level, tags }`. -/
structure Heading where
  title : String
  level : Int
  tags : List String
deriving Repr, DecidableEq

/-- One child element of a section; the core only inspects its `type` tag. -/
structure SectionChild where
  type : String
deriving Repr, DecidableEq

/-- The body section of a heading-entry: `{ children }`. -/
structure OrgSection where
  children : List SectionChild
deriving Repr, DecidableEq

/-- One AST heading-entry: `{ heading, section }` (the JS field `section` is
spelled `sect` here because `section` is a Lean keyword). -/
structure OutlineData where
  heading : Heading
  sect : OrgSection
deriving Repr, DecidableEq

/-- A document-level option `{ name, value }`. -/
structure OrgOption where
  name : String
  value : String
deriving Repr, DecidableEq

/-- A document-level named block `{ name, ... }` (only `name` is inspected). -/
structure Block where
  name : String
deriving Repr, DecidableEq

/-- The AST produced by the external parser: `{ outlines, options, blocks }`. -/
structure AST where
  outlines : List OutlineData
  options : List OrgOption
  blocks : List Block
deriving Repr, DecidableEq

/-- An `OutlineNode` as built by its constructor: it captures the backing
entry `_data`, its positional index `_index`, and copies
`this.title = this._data.heading.title`, `this.level = ...level`,
`this.tags = ...tags` at construction time. -/
structure OutlineNode where
  _data : OutlineData
  _index : Nat
  title : String
  level : Int
  tags : List String
deriving Repr, DecidableEq

/-- Source `new OutlineNode(data, { index, list })`: the constructor stores the
backing data and index and copies the three heading fields. -/
def mkOutlineNode (data : OutlineData) (index : Nat) : OutlineNode :=
  { _data := data, _index := index,
    title := data.heading.title,
    level := data.heading.level,
    tags := data.heading.tags }

/-- Source `OutlineNode.prototype.next`: the source is
`if (this._index >= this._list.length - 1) return null;
 else return this._list[this._index + 1]._node;`.
The backing list `_list` is the shared `ast.outlines` sequence, and the
memoized `_node` decoration on entry `j` is the canonical wrapper
`mkOutlineNode (doc[j]) j` installed by `_buildOutlines`.  Under the guard the
access `_list[_index + 1]` is always defined, so `next` never throws; the
unreachable `undefined` branch is mapped to `none`. -/
def OutlineNode.next (doc : List OutlineData) (n : OutlineNode) : Option OutlineNode :=
  if (n._index : Int) ≥ (doc.length : Int) - 1 then none
  else
    match jsIndex doc ((n._index : Int) + 1) with
    | some d => some (mkOutlineNode d (n._index + 1))
    | none => none

/-- Source `OutlineNode.prototype.prev`: the source is
`if (this._index < 0) return null;
 else return this._list[this._index - 1]._node;`.
For `_index = 0` the guard does not fire, `this._list[-1]` is `undefined`,
and reading `._node` on `undefined` throws a `TypeError`, modelled as
`Except.error ()`. -/
def OutlineNode.prev (doc : List OutlineData) (n : OutlineNode) :
    Except Unit (Option OutlineNode) :=
  if (n._index : Int) < 0 then Except.ok none
  else
    match jsIndex doc ((n._index : Int) - 1) with
    | some d => Except.ok (some (mkOutlineNode d ((n._index : Int) - 1).toNat))
    | none => Except.error ()

/-- Source `OutlineNode.prototype.tables`: filter the entry's section children for
`child.type === 'table'`. -/
def OutlineNode.tables (n : OutlineNode) : List SectionChild :=
  n._data.sect.children.filter (fun child => child.type = "table")

/-- The loop body of the `children` getter, indexed by the position of the
node currently under the cursor.  In the source the cursor `curr` is the node
at index `i` obtained via repeated `next()` calls (`none` once the walk runs
off the end, see `OutlineNode.next_eq_get?`): the loop pushes `curr` and
advances while `curr && curr.level > this.level`. -/
def childrenFrom (doc : List OutlineData) (level : Int) (i : Nat) :
    List OutlineNode :=
  match h : doc.get? i with
  | none => []
  | some d =>
    if level < d.heading.level then
      mkOutlineNode d i :: childrenFrom doc level (i + 1)
    else []
termination_by doc.length - i
decreasing_by
  simp only [List.get?_eq_some] at h
  obtain ⟨hlt, -⟩ := h
  omega

/-- The `OutlinesArrayList` container: it stores `_outlines`. -/
structure OutlinesArrayList where
  _outlines : List OutlineNode
deriving Repr, DecidableEq

/-- Source `OutlineNode.prototype.children`: start from `this.next()` and collect
while the visited level is strictly greater than `this.level`, wrapping the
result in a new `OutlinesArrayList`. -/
def OutlineNode.children (doc : List OutlineData) (n : OutlineNode) :
    OutlinesArrayList :=
  ⟨childrenFrom doc n.level (n._index + 1)⟩

/-- Source `get length()` of `OutlinesArrayList`. -/
def OutlinesArrayList.length (l : OutlinesArrayList) : Nat :=
  l._outlines.length

/-- Source `get tables()` of `OutlinesArrayList`: reduce over the members,
concatenating each member's `tables` when non-empty. -/
def OutlinesArrayList.tables (l : OutlinesArrayList) : List SectionChild :=
  l._outlines.foldl
    (fun collection outline =>
      let tables := outline.tables
      if tables.length > 0 then collection ++ tables else collection)
    []

/-- Source `getItem(n)`: plain JS array indexing `this._outlines[n]`
(`undefined`, i.e. `none`, when out of range). -/
def OutlinesArrayList.getItem (l : OutlinesArrayList) (n : Int) :
    Option OutlineNode :=
  jsIndex l._outlines n

/-- Source `first()`: `this.getItem(0)`. -/
def OutlinesArrayList.first (l : OutlinesArrayList) : Option OutlineNode :=
  l.getItem 0

/-- Source `last()`: `this.getItem(this.length - 1)`; on an empty list the argument
is the JS number `-1`. -/
def OutlinesArrayList.last (l : OutlinesArrayList) : Option OutlineNode :=
  l.getItem ((l.length : Int) - 1)

/-- Source `findByLevel(level)`: filter on `outline.level === level`. -/
def OutlinesArrayList.findByLevel (l : OutlinesArrayList) (level : Int) :
    List OutlineNode :=
  l._outlines.filter (fun outline => outline.level = level)

/-- Source `findByTags(tags)`: filter on `outline.tags.some(tag => tag === tags)`. -/
def OutlinesArrayList.findByTags (l : OutlinesArrayList) (tags : String) :
    List OutlineNode :=
  l._outlines.filter (fun outline => outline.tags.any (fun tag => tag = tags))

/-- Source `findByTitle(title)`: filter on `outline.title === title`. -/
def OutlinesArrayList.findByTitle (l : OutlinesArrayList) (title : String) :
    List OutlineNode :=
  l._outlines.filter (fun outline => outline.title = title)

/-- Source `Orgmode.prototype._buildOutlines`: map over `ast.outlines`, building one
`OutlineNode` per entry with its index, and memoize the wrapper as the
`_node` decoration of the entry (the decoration is what `jsIndex`-based
navigation reads back; here the canonical wrapper at position `i` is by
construction `mkOutlineNode (outlines[i]) i`). -/
def buildOutlines (outlines : List OutlineData) : List OutlineNode :=
  outlines.mapIdx (fun index data => mkOutlineNode data index)

/-- Model of `String.prototype.toLowerCase()`: character-wise lowercasing. -/
def jsToLowerCase (s : String) : String := ⟨s.data.map Char.toLower⟩

/-- Source `get overview()` of `Orgmode`: fold the AST's options into a map,
`map[item.name.toLowerCase()] = item.value`.  A JS object used as a
string-keyed map is modelled as a function `String → Option String`. -/
def overview (ast : AST) : String → Option String :=
  ast.options.foldl
    (fun map item =>
      fun key => if key = jsToLowerCase item.name then some item.value else map key)
    (fun _ => none)

/-- Source `findBlockByName(name)`: filter the AST's blocks on `block.name === name`. -/
def findBlockByName (ast : AST) (name : String) : List Block :=
  ast.blocks.filter (fun block => block.name = name)

/-! Reference-semantics model for the constructor's field copies.  In JS an
array value is a reference into the heap, so `this.tags = data.heading.tags`
copies the reference while `this.title`/`this.level` copy primitive values.
This fragment makes the heap explicit in order to analyse aliasing. -/

/-- A reference to a JS array of tag strings living on the heap. -/
abbrev TagsRef := Nat

/-- The heap of tag arrays: each reference maps to the current contents of
the array it designates. -/
def TagsHeap := TagsRef → List String

/-- A raw AST heading under reference semantics: its `tags` field holds a
reference to a mutable array, not the array contents. -/
structure HeadingRef where
  title : String
  level : Int
  tags : TagsRef

/-- The three fields the `OutlineNode` constructor assigns
(`this.title = ...`, `this.level = ...`, `this.tags = ...`), with `tags`
kept as the heap reference that the JS assignment actually copies. -/
structure NodeFields where
  title : String
  level : Int
  tags : TagsRef

/-- The constructor's field-copy step under reference semantics: primitive
values are copied, the tags array reference is copied as a reference. -/
def constructNode (h : HeadingRef) : NodeFields :=
  { title := h.title, level := h.level, tags := h.tags }

/-- Reading `node.tags` dereferences the stored array reference in the
current heap. -/
def readTags (heap : TagsHeap) (n : NodeFields) : List String := heap n.tags

/-- In-place mutation of the array behind reference `r`, as performed by
e.g. `heading.tags.push(...)` on the shared array object. -/
def writeTags (heap : TagsHeap) (r : TagsRef) (v : List String) : TagsHeap :=
  fun x => if x = r then v else heap x

/-! Concrete documents used as evaluation inputs. -/

/-- The single entry of `doc1`: a level-1 heading. -/
def doc1E : OutlineData :=
  { heading := { title := "h1", level := 1, tags := [] },
    sect := { children := [] } }

/-- A concrete one-entry document: a single level-1 heading. -/
def doc1 : List OutlineData := [doc1E]

/-- First entry of `docGap`: a level-1 heading. -/
def gapE0 : OutlineData :=
  { heading := { title := "a", level := 1, tags := [] },
    sect := { children := [] } }

/-- Second entry of `docGap`: a level-3 heading. -/
def gapE1 : OutlineData :=
  { heading := { title := "b", level := 3, tags := [] },
    sect := { children := [] } }

/-- A concrete two-entry document with headings at levels 1 and 3: a level
gap. -/
def docGap : List OutlineData := [gapE0, gapE1]

/-- A concrete AST whose option list declares the same case-folded name
twice: Title=A then TITLE=B. -/
def astDup : AST :=
  { outlines := [],
    options := [{ name := "Title", value := "A" },
                { name := "TITLE", value := "B" }],
    blocks := [] }

/-! Helper lemmas characterising the embedded operations. -/

theorem next_eq_get? (doc : List OutlineData) (n : OutlineNode) :
    OutlineNode.next doc n =
      (doc.get? (n._index + 1)).map (fun d => mkOutlineNode d (n._index + 1)) := by
  unfold OutlineNode.next jsIndex
  by_cases hg : (n._index : Int) ≥ (doc.length : Int) - 1
  · rw [if_pos hg]
    have hlen : doc.length ≤ n._index + 1 := by omega
    rw [List.get?_eq_none.mpr hlen]
    rfl
  · rw [if_neg hg]
    have h1 : ¬ ((n._index : Int) + 1 < 0) := by omega
    rw [if_neg h1]
    have h2 : ((n._index : Int) + 1).toNat = n._index + 1 := by omega
    rw [h2]
    cases doc.get? (n._index + 1) <;> rfl

theorem prev_of_get? (doc : List OutlineData) (n : OutlineNode) (d : OutlineData)
    (hpos : 0 < n._index) (h : doc.get? (n._index - 1) = some d) :
    OutlineNode.prev doc n = Except.ok (some (mkOutlineNode d (n._index - 1))) := by
  unfold OutlineNode.prev jsIndex
  have h0 : ¬ ((n._index : Int) < 0) := by omega
  rw [if_neg h0]
  have h1 : ¬ ((n._index : Int) - 1 < 0) := by omega
  rw [if_neg h1]
  have h2 : ((n._index : Int) - 1).toNat = n._index - 1 := by omega
  rw [h2, h]

theorem prev_at_zero (doc : List OutlineData) (n : OutlineNode)
    (h : n._index = 0) : OutlineNode.prev doc n = Except.error () := by
  unfold OutlineNode.prev jsIndex
  rw [h]
  norm_num

theorem buildOutlines_get? (outlines : List OutlineData) (i : Nat) :
    (buildOutlines outlines).get? i =
      (outlines.get? i).map (fun d => mkOutlineNode d i) := by
  unfold buildOutlines
  by_cases h : i < outlines.length
  · have h' : i < (outlines.mapIdx (fun index data => mkOutlineNode data index)).length := by
      rw [List.length_mapIdx]; exact h
    rw [List.get?_eq_get h, List.get?_eq_get h']
    rw [List.get_mapIdx]
    rfl
  · have h1 : outlines.length ≤ i := le_of_not_lt h
    have h1' : (outlines.mapIdx (fun index data => mkOutlineNode data index)).length ≤ i := by
      rw [List.length_mapIdx]; exact h1
    rw [List.get?_eq_none.mpr h1, List.get?_eq_none.mpr h1']
    rfl

theorem childrenFrom_of_none (doc : List OutlineData) (L : Int) (i : Nat)
    (h : doc.get? i = none) : childrenFrom doc L i = [] := by
  unfold childrenFrom
  split
  · rfl
  · rename_i d heq
    rw [h] at heq
    cases heq

theorem childrenFrom_of_gt (doc : List OutlineData) (L : Int) (i : Nat)
    (d : OutlineData) (h : doc.get? i = some d) (hL : L < d.heading.level) :
    childrenFrom doc L i = mkOutlineNode d i :: childrenFrom doc L (i + 1) := by
  conv_lhs => rw [childrenFrom.eq_def]
  split
  · rename_i heq
    rw [h] at heq
    cases heq
  · rename_i d' heq
    rw [h] at heq
    injection heq with heq'
    subst heq'
    rw [if_pos hL]

theorem childrenFrom_of_le (doc : List OutlineData) (L : Int) (i : Nat)
    (d : OutlineData) (h : doc.get? i = some d) (hL : ¬ L < d.heading.level) :
    childrenFrom doc L i = [] := by
  unfold childrenFrom
  split
  · rfl
  · rename_i d' heq
    rw [h] at heq
    injection heq with heq'
    subst heq'
    rw [if_neg hL]

theorem childrenFrom_spec (doc : List OutlineData) (L : Int) (i : Nat) :
    ∃ k,
      (childrenFrom doc L i).map OutlineNode._index = List.range' i k ∧
      (∀ m ∈ childrenFrom doc L i,
        ∃ d, doc.get? m._index = some d ∧ m = mkOutlineNode d m._index ∧
          L < d.heading.level) ∧
      (∀ t, i ≤ t → t < i + k →
        ∃ e, doc.get? t = some e ∧ L < e.heading.level) ∧
      (doc.get? (i + k) = none ∨
        ∃ e, doc.get? (i + k) = some e ∧ e.heading.level ≤ L) := by
  generalize hm : doc.length - i = m
  induction m generalizing i with
  | zero =>
    have hnone : doc.get? i = none := List.get?_eq_none.mpr (by omega)
    refine ⟨0, ?_, ?_, ?_, ?_⟩
    · rw [childrenFrom_of_none doc L i hnone]
      rfl
    · intro x hx
      rw [childrenFrom_of_none doc L i hnone] at hx
      cases hx
    · intro t h1 h2
      omega
    · left
      simpa using hnone
  | succ m ih =>
    have hi : i < doc.length := by omega
    obtain ⟨d, hd⟩ : ∃ d, doc.get? i = some d := ⟨_, List.get?_eq_get hi⟩
    by_cases hL : L < d.heading.level
    · have hcons := childrenFrom_of_gt doc L i d hd hL
      obtain ⟨k, hmap, hmem, hrun, hstop⟩ := ih (i + 1) (by omega)
      refine ⟨k + 1, ?_, ?_, ?_, ?_⟩
      · rw [hcons, List.map_cons, hmap, List.range'_succ i k 1]
        rfl
      · intro x hx
        rw [hcons] at hx
        rcases List.mem_cons.mp hx with h | h
        · subst h
          exact ⟨d, hd, rfl, hL⟩
        · exact hmem x h
      · intro t h1 h2
        rcases eq_or_lt_of_le h1 with rfl | h1'
        · exact ⟨d, hd, hL⟩
        · exact hrun t (by omega) (by omega)
      · have harith : i + (k + 1) = (i + 1) + k := by omega
        rw [harith]
        exact hstop
    · have hnil := childrenFrom_of_le doc L i d hd hL
      refine ⟨0, ?_, ?_, ?_, ?_⟩
      · rw [hnil]
        rfl
      · intro x hx
        rw [hnil] at hx
        cases hx
      · intro t h1 h2
        omega
      · right
        exact ⟨d, by simpa using hd, by omega⟩

theorem mem_childrenFrom (doc : List OutlineData) (L : Int) (i : Nat)
    (m : OutlineNode) :
    m ∈ childrenFrom doc L i ↔
      ∃ t d, i ≤ t ∧ doc.get? t = some d ∧ m = mkOutlineNode d t ∧
        (∀ s, i ≤ s → s ≤ t →
          ∃ e, doc.get? s = some e ∧ L < e.heading.level) := by
  obtain ⟨k, hmap, hmem, hrun, hstop⟩ := childrenFrom_spec doc L i
  constructor
  · intro hm'
    obtain ⟨d, hd, hmk, hL⟩ := hmem m hm'
    have hidx : m._index ∈ List.range' i k := by
      rw [← hmap]
      exact List.mem_map_of_mem _ hm'
    have hb := List.mem_range'_1.mp hidx
    exact ⟨m._index, d, hb.1, hd, hmk,
      fun s hs1 hs2 => hrun s hs1 (by omega)⟩
  · rintro ⟨t, d, ht, hd, rfl, hall⟩
    have htk : t < i + k := by
      by_contra hge
      push_neg at hge
      obtain ⟨e, he, hLe⟩ := hall (i + k) (by omega) (by omega)
      rcases hstop with hnone | ⟨e', he', hle⟩
      · rw [he] at hnone
        cases hnone
      · rw [he] at he'
        injection he' with heq
        subst heq
        omega
    have hidx : t ∈ List.range' i k := List.mem_range'_1.mpr ⟨ht, htk⟩
    rw [← hmap] at hidx
    obtain ⟨m', hm'mem, hm'idx⟩ := List.mem_map.mp hidx
    obtain ⟨d', hd', hmk', hL'⟩ := hmem m' hm'mem
    rw [hm'idx] at hd' hmk'
    rw [hd] at hd'
    injection hd' with heq
    subst heq
    rw [← hmk'] at *
    exact hm'mem

theorem tables_foldl (l : List OutlineNode) (acc : List SectionChild) :
    l.foldl
      (fun collection outline =>
        let tables := outline.tables
        if tables.length > 0 then collection ++ tables else collection)
      acc
    = acc ++ (l.map OutlineNode.tables).flatten := by
  induction l generalizing acc with
  | nil => simp
  | cons x xs ih =>
    simp only [List.foldl_cons, List.map_cons, List.flatten_cons]
    rw [ih]
    by_cases h : x.tables.length > 0
    · rw [if_pos h, List.append_assoc]
    · rw [if_neg h]
      have hx : x.tables = [] := List.length_eq_zero.mp (by omega)
      rw [hx]
      simp

theorem overview_foldl (l : List OrgOption) (acc : String → Option String)
    (key : String) :
    (l.foldl
      (fun map item =>
        fun k => if k = jsToLowerCase item.name then some item.value else map k)
      acc) key
    = match l.reverse.find? (fun o => jsToLowerCase o.name == key) with
      | some o => some o.value
      | none => acc key := by
  induction l generalizing acc with
  | nil => simp
  | cons o l ih =>
    simp only [List.foldl_cons, List.reverse_cons]
    rw [ih, List.find?_append]
    cases hf : l.reverse.find? (fun o => jsToLowerCase o.name == key) with
    | some o' => simp
    | none =>
      simp only [Option.none_or]
      by_cases hp : jsToLowerCase o.name = key
      · simp [List.find?_cons, hp]
      · have hp' : (jsToLowerCase o.name == key) = false := by
          simpa using hp
        simp [List.find?_cons, hp', Ne.symm hp]

/-! Claim theorems. -/

/-- C1: the claim states that `prev()` on the node at position 0
(`first().prev()`) returns "none" rather than failing.  The code instead
evaluates `this._list[-1]._node` — reading `._node` of `undefined` — which
throws a `TypeError`.  This theorem evaluates the embedded code at the
failing input: in a one-entry document, the canonical node at position 0 is
`mkOutlineNode doc1E 0`, and its `prev()` yields the error, not "none". -/
theorem C1_prev_at_position_zero_throws :
    (buildOutlines doc1).get? 0 = some (mkOutlineNode doc1E 0) ∧
    OutlineNode.prev doc1 (mkOutlineNode doc1E 0) = Except.error () := by
  exact ⟨rfl, prev_at_zero doc1 _ rfl⟩

/-- C4: Document construction wraps every heading-entry exactly once and in
order: the built list has the same length as `ast.outlines`, and for every
`i`, the node at index `i` has position `i` and wraps the `i`-th entry. -/
theorem C4_build_wraps_in_order :
    ∀ outlines : List OutlineData,
      (buildOutlines outlines).length = outlines.length ∧
      ∀ (i : Nat) (d : OutlineData), outlines.get? i = some d →
        (buildOutlines outlines).get? i = some (mkOutlineNode d i) ∧
        (mkOutlineNode d i)._index = i ∧ (mkOutlineNode d i)._data = d := by
  intro outlines
  constructor
  · unfold buildOutlines
    exact List.length_mapIdx
  · intro i d h
    refine ⟨?_, rfl, rfl⟩
    rw [buildOutlines_get?, h]
    rfl

/-- Witness for C4 at the concrete one-entry document. -/
theorem C4_build_wraps_in_order_witness :
    (buildOutlines doc1).length = doc1.length ∧
    (buildOutlines doc1).get? 0 = some (mkOutlineNode doc1E 0) ∧
    (mkOutlineNode doc1E 0)._index = 0 ∧
    (mkOutlineNode doc1E 0)._data = doc1E := by
  obtain ⟨h1, h2⟩ := C4_build_wraps_in_order doc1
  obtain ⟨ha, hb, hc⟩ := h2 0 doc1E rfl
  exact ⟨h1, ha, hb, hc⟩

/-- C3: for a node `n` at position `i` with a successor, `next()` yields the
canonical wrapper at position `i + 1`, whose `prev()` round-trips to `n`;
for the node at the last position, `next()` yields "none". -/
theorem C3_next_prev_roundtrip :
    (∀ (doc : List OutlineData) (i : Nat) (n n' : OutlineNode),
      (buildOutlines doc).get? i = some n →
      (buildOutlines doc).get? (i + 1) = some n' →
      OutlineNode.next doc n = some n' ∧
      n'._index = n._index + 1 ∧
      OutlineNode.prev doc n' = Except.ok (some n)) ∧
    (∀ (doc : List OutlineData) (n : OutlineNode),
      (buildOutlines doc).get? (doc.length - 1) = some n →
      OutlineNode.next doc n = none) := by
  constructor
  · intro doc i n n' hn hn'
    rw [buildOutlines_get?] at hn hn'
    obtain ⟨d, hd, hmk⟩ := Option.map_eq_some'.mp hn
    obtain ⟨d', hd', hmk'⟩ := Option.map_eq_some'.mp hn'
    subst hmk hmk'
    refine ⟨?_, rfl, ?_⟩
    · rw [next_eq_get?]
      show (doc.get? (i + 1)).map _ = _
      rw [hd']
      rfl
    · have hp := prev_of_get? doc (mkOutlineNode d' (i + 1)) d
        (Nat.succ_pos i) (by simpa [mkOutlineNode] using hd)
      simpa [mkOutlineNode] using hp
  · intro doc n hn
    rw [buildOutlines_get?] at hn
    obtain ⟨d, hd, hmk⟩ := Option.map_eq_some'.mp hn
    subst hmk
    have hlen : doc.length - 1 < doc.length := (List.get?_eq_some.mp hd).1
    rw [next_eq_get?]
    have hnone : doc.get? ((mkOutlineNode d (doc.length - 1))._index + 1) = none := by
      apply List.get?_eq_none.mpr
      show doc.length ≤ (doc.length - 1) + 1
      omega
    rw [hnone]
    rfl

/-- Witness for C3 at the concrete two-entry document. -/
theorem C3_next_prev_roundtrip_witness :
    OutlineNode.next docGap (mkOutlineNode gapE0 0) = some (mkOutlineNode gapE1 1) ∧
    (mkOutlineNode gapE1 1)._index = (mkOutlineNode gapE0 0)._index + 1 ∧
    OutlineNode.prev docGap (mkOutlineNode gapE1 1) =
      Except.ok (some (mkOutlineNode gapE0 0)) ∧
    OutlineNode.next docGap (mkOutlineNode gapE1 1) = none := by
  obtain ⟨a, b, c⟩ := C3_next_prev_roundtrip.1 docGap 0
    (mkOutlineNode gapE0 0) (mkOutlineNode gapE1 1) rfl rfl
  exact ⟨a, b, c, C3_next_prev_roundtrip.2 docGap (mkOutlineNode gapE1 1) rfl⟩

/-- C2: `children()` of the node at position `i` contains exactly the nodes
reached by walking forward from the successor while the visited level is
strictly greater than the node's level (a member is any node at `t > i` all
of whose predecessors back to `i + 1` have level strictly above `n.level`);
the last node of any document has zero children; and in the concrete
level-gap document with levels 1 and 3, the first node has exactly one
child. -/
theorem C2_children_walk :
    (∀ (doc : List OutlineData) (i : Nat) (n : OutlineNode),
      (buildOutlines doc).get? i = some n →
      ∀ m : OutlineNode,
        m ∈ (OutlineNode.children doc n)._outlines ↔
          ∃ t d, i < t ∧ doc.get? t = some d ∧ m = mkOutlineNode d t ∧
            (∀ s, i < s → s ≤ t →
              ∃ e, doc.get? s = some e ∧ n.level < e.heading.level)) ∧
    (∀ (doc : List OutlineData) (n : OutlineNode),
      (buildOutlines doc).get? (doc.length - 1) = some n →
      (OutlineNode.children doc n).length = 0) ∧
    (OutlineNode.children docGap (mkOutlineNode gapE0 0)).length = 1 := by
  refine ⟨?_, ?_, ?_⟩
  · intro doc i n hn m
    rw [buildOutlines_get?] at hn
    obtain ⟨d, hd, hmk⟩ := Option.map_eq_some'.mp hn
    subst hmk
    have hchild : (OutlineNode.children doc (mkOutlineNode d i))._outlines
        = childrenFrom doc d.heading.level (i + 1) := rfl
    rw [hchild, mem_childrenFrom]
    constructor
    · rintro ⟨t, d', ht, hd', rfl, hall⟩
      exact ⟨t, d', by omega, hd', rfl,
        fun s hs1 hs2 => hall s (by omega) hs2⟩
    · rintro ⟨t, d', ht, hd', rfl, hall⟩
      exact ⟨t, d', by omega, hd', rfl,
        fun s hs1 hs2 => hall s (by omega) hs2⟩
  · intro doc n hn
    rw [buildOutlines_get?] at hn
    obtain ⟨d, hd, hmk⟩ := Option.map_eq_some'.mp hn
    subst hmk
    have hlen : doc.length - 1 < doc.length := (List.get?_eq_some.mp hd).1
    have hnone : doc.get? ((doc.length - 1) + 1) = none :=
      List.get?_eq_none.mpr (by omega)
    show (childrenFrom doc d.heading.level ((doc.length - 1) + 1)).length = 0
    rw [childrenFrom_of_none doc _ _ hnone]
    rfl
  · have h1 : docGap.get? 1 = some gapE1 := rfl
    have h2 : docGap.get? 2 = none := rfl
    have hg : (1 : Int) < gapE1.heading.level := by decide
    have hc1 := childrenFrom_of_gt docGap 1 1 gapE1 h1 hg
    have hc2 := childrenFrom_of_none docGap 1 2 h2
    show (childrenFrom docGap 1 (0 + 1)).length = 1
    rw [show (0 + 1) = 1 from rfl, hc1, hc2]
    rfl

/-- Witness for C2 at the concrete level-gap document: position 1 (the
level-3 heading) is a child of position 0 (the level-1 heading). -/
theorem C2_children_walk_witness :
    mkOutlineNode gapE1 1 ∈
      (OutlineNode.children docGap (mkOutlineNode gapE0 0))._outlines := by
  apply (C2_children_walk.1 docGap 0 (mkOutlineNode gapE0 0) rfl
    (mkOutlineNode gapE1 1)).mpr
  refine ⟨1, gapE1, by omega, rfl, rfl, ?_⟩
  intro s hs1 hs2
  have hs : s = 1 := by omega
  subst hs
  exact ⟨gapE1, rfl, by decide⟩

/-- C10: the members of `children()` of the node at position `i` occupy the
consecutive positions `i + 1, ..., i + k` for some `k ≥ 0`: the maximal
contiguous run of nodes immediately following `i` whose levels all exceed
the node's level, with nothing skipped inside the run (the positions are
exactly `range' (i+1) k`) and node `i + k + 1` absent or of level at most
the node's level. -/
theorem C10_children_consecutive_positions :
    ∀ (doc : List OutlineData) (i : Nat) (n : OutlineNode),
      (buildOutlines doc).get? i = some n →
      ∃ k,
        ((OutlineNode.children doc n)._outlines).map OutlineNode._index =
          List.range' (i + 1) k ∧
        (∀ m ∈ (OutlineNode.children doc n)._outlines,
          ∃ d, doc.get? m._index = some d ∧ m = mkOutlineNode d m._index ∧
            n.level < d.heading.level) ∧
        (∀ t, i < t → t ≤ i + k →
          ∃ e, doc.get? t = some e ∧ n.level < e.heading.level) ∧
        (doc.get? (i + k + 1) = none ∨
          ∃ e, doc.get? (i + k + 1) = some e ∧
            e.heading.level ≤ n.level) := by
  intro doc i n hn
  rw [buildOutlines_get?] at hn
  obtain ⟨d, hd, hmk⟩ := Option.map_eq_some'.mp hn
  subst hmk
  obtain ⟨k, hmap, hmem, hrun, hstop⟩ :=
    childrenFrom_spec doc d.heading.level (i + 1)
  have hchild : (OutlineNode.children doc (mkOutlineNode d i))._outlines
      = childrenFrom doc d.heading.level (i + 1) := rfl
  refine ⟨k, ?_, ?_, ?_, ?_⟩
  · rw [hchild]
    exact hmap
  · intro m hm'
    rw [hchild] at hm'
    exact hmem m hm'
  · intro t h1 h2
    exact hrun t (by omega) (by omega)
  · have harith : i + k + 1 = (i + 1) + k := by omega
    rw [harith]
    exact hstop

/-- Witness for C10 at the concrete level-gap document. -/
theorem C10_children_consecutive_positions_witness :
    ∃ k,
      ((OutlineNode.children docGap (mkOutlineNode gapE0 0))._outlines).map
          OutlineNode._index = List.range' (0 + 1) k ∧
      (∀ m ∈ (OutlineNode.children docGap (mkOutlineNode gapE0 0))._outlines,
        ∃ d, docGap.get? m._index = some d ∧ m = mkOutlineNode d m._index ∧
          (mkOutlineNode gapE0 0).level < d.heading.level) ∧
      (∀ t, 0 < t → t ≤ 0 + k →
        ∃ e, docGap.get? t = some e ∧
          (mkOutlineNode gapE0 0).level < e.heading.level) ∧
      (docGap.get? (0 + k + 1) = none ∨
        ∃ e, docGap.get? (0 + k + 1) = some e ∧
          e.heading.level ≤ (mkOutlineNode gapE0 0).level) :=
  C10_children_consecutive_positions docGap 0 (mkOutlineNode gapE0 0) rfl

/-- C5: `overview` is the in-order fold with lowercased keys; declaratively,
looking up a key returns the value of the last option whose case-folded name
equals the key (last-write-wins, never an error, never a list of values);
at the concrete duplicate options Title=A, TITLE=B, the key "title" maps to
"B". -/
theorem C5_overview_last_write_wins :
    (∀ (ast : AST) (key : String),
      overview ast key =
        (ast.options.reverse.find?
          (fun o => jsToLowerCase o.name == key)).map OrgOption.value) ∧
    overview astDup "title" = some "B" := by
  constructor
  · intro ast key
    unfold overview
    rw [overview_foldl]
    cases hf : ast.options.reverse.find? (fun o => jsToLowerCase o.name == key)
      <;> rfl
  · decide

/-- C6: the collection's `tables` is exactly the concatenation, in member
order, of each member's own tables (members with zero tables contribute
nothing, no gaps and no null entries); and a member's own `tables` is the
order-preserving subset of its section's children whose variant tag is
`table`. -/
theorem C6_tables_concatenation :
    (∀ l : OutlinesArrayList,
      l.tables = (l._outlines.map OutlineNode.tables).flatten) ∧
    (∀ (n : OutlineNode) (c : SectionChild),
      (OutlineNode.tables n).Sublist n._data.sect.children ∧
      (c ∈ OutlineNode.tables n ↔
        c ∈ n._data.sect.children ∧ c.type = "table")) := by
  constructor
  · intro l
    unfold OutlinesArrayList.tables
    rw [tables_foldl]
    simp
  · intro n c
    constructor
    · exact List.filter_sublist _
    · unfold OutlineNode.tables
      simp [List.mem_filter]

/-- C7: `findByLevel(L)` returns exactly the members whose `level` equals
`L`, preserving original order (it is a sublist of the member sequence), and
an empty list — not an error — when nothing matches. -/
theorem C7_findByLevel_filter :
    ∀ (l : OutlinesArrayList) (L : Int),
      ((l.findByLevel L).Sublist l._outlines) ∧
      (∀ m, m ∈ l.findByLevel L ↔ m ∈ l._outlines ∧ m.level = L) ∧
      ((∀ m ∈ l._outlines, m.level ≠ L) → l.findByLevel L = []) := by
  intro l L
  refine ⟨List.filter_sublist _, ?_, ?_⟩
  · intro m
    unfold OutlinesArrayList.findByLevel
    simp [List.mem_filter]
  · intro h
    unfold OutlinesArrayList.findByLevel
    rw [List.filter_eq_nil_iff]
    intro a ha
    simpa using h a ha

/-- Witness for C7 at the empty collection and an unmatched level. -/
theorem C7_findByLevel_filter_witness :
    ((OutlinesArrayList.mk []).findByLevel 5).Sublist
        (OutlinesArrayList.mk [])._outlines ∧
    (mkOutlineNode doc1E 0 ∈ (OutlinesArrayList.mk []).findByLevel 5 ↔
      mkOutlineNode doc1E 0 ∈ (OutlinesArrayList.mk [])._outlines ∧
        (mkOutlineNode doc1E 0).level = 5) ∧
    (OutlinesArrayList.mk []).findByLevel 5 = [] := by
  obtain ⟨a, b, c⟩ := C7_findByLevel_filter (OutlinesArrayList.mk []) 5
  refine ⟨a, b _, c ?_⟩
  intro m hm
  cases hm

/-- C8: on an empty collection both `first()` and `last()` yield "absent"
(`none`) rather than faulting on the implied index `-1`; on a non-empty
collection they are the items at index 0 and `length - 1`, both present. -/
theorem C8_first_last :
    ∀ l : OutlinesArrayList,
      (l.length = 0 → l.first = none ∧ l.last = none) ∧
      (0 < l.length →
        l.first = l._outlines.get? 0 ∧
        l.last = l._outlines.get? (l.length - 1) ∧
        ∃ m m', l.first = some m ∧ l.last = some m') := by
  intro l
  constructor
  · intro h0
    have hnil : l._outlines = [] := List.length_eq_zero.mp h0
    constructor
    · show jsIndex l._outlines 0 = none
      unfold jsIndex
      rw [if_neg (by omega)]
      simp [hnil]
    · show jsIndex l._outlines ((OutlinesArrayList.length l : Int) - 1) = none
      unfold jsIndex
      rw [if_pos (by rw [h0]; norm_num)]
  · intro hpos
    have hfirst : l.first = l._outlines.get? 0 := by
      show jsIndex l._outlines 0 = _
      unfold jsIndex
      rw [if_neg (by omega)]
      rfl
    have hlast : l.last = l._outlines.get? (l.length - 1) := by
      show jsIndex l._outlines ((OutlinesArrayList.length l : Int) - 1) = _
      unfold jsIndex
      have hc : ¬ ((OutlinesArrayList.length l : Int) - 1 < 0) := by
        unfold OutlinesArrayList.length at hpos ⊢
        omega
      rw [if_neg hc]
      have ht : ((OutlinesArrayList.length l : Int) - 1).toNat
          = OutlinesArrayList.length l - 1 := by omega
      rw [ht]
    refine ⟨hfirst, hlast, ?_⟩
    have h0 : 0 < l._outlines.length := hpos
    have h1 : l.length - 1 < l._outlines.length := by
      unfold OutlinesArrayList.length at hpos ⊢
      omega
    exact ⟨_, _, by rw [hfirst]; exact List.get?_eq_get h0,
      by rw [hlast]; exact List.get?_eq_get h1⟩

/-- Witness for C8 at an empty and a one-element collection. -/
theorem C8_first_last_witness :
    ((OutlinesArrayList.mk []).first = none ∧
     (OutlinesArrayList.mk []).last = none) ∧
    ((OutlinesArrayList.mk [mkOutlineNode doc1E 0]).first =
        (OutlinesArrayList.mk [mkOutlineNode doc1E 0])._outlines.get? 0 ∧
     ∃ m m', (OutlinesArrayList.mk [mkOutlineNode doc1E 0]).first = some m ∧
       (OutlinesArrayList.mk [mkOutlineNode doc1E 0]).last = some m') := by
  have h1 := (C8_first_last (OutlinesArrayList.mk [])).1 rfl
  have h2 := (C8_first_last (OutlinesArrayList.mk [mkOutlineNode doc1E 0])).2
    Nat.one_pos
  exact ⟨h1, h2.1, h2.2.2⟩

/-- C9 counterexample: the claim says that after construction, mutating the
source heading — in particular its tags set — does not change the node's
`tags`.  In the code `this.tags = this._data.heading.tags` copies an array
reference, so with the heading's tags stored at array reference 0 and that
array mutated in place from `[]` to `["x"]`, the node's observed tags
change: the claim is false at this input. -/
theorem C9_tags_are_aliased_counterexample :
    readTags (writeTags (fun _ => []) (HeadingRef.tags ⟨"A", 1, 0⟩) ["x"])
        (constructNode ⟨"A", 1, 0⟩)
      ≠ readTags (fun _ => []) (constructNode ⟨"A", 1, 0⟩) := by
  decide

/-- C9 amended: `title` and `level` are value copies taken at construction
(mutating the heap never affects them), and `tags` is copied as a reference
to the same array: in-place mutation of the source heading's tags array is
visible through the node's `tags`, while mutating any other array leaves the
node's view unchanged. -/
theorem C9_constructor_copies_amended :
    ∀ (hd : HeadingRef) (heap : TagsHeap) (v : List String),
      (constructNode hd).title = hd.title ∧
      (constructNode hd).level = hd.level ∧
      (constructNode hd).tags = hd.tags ∧
      readTags (writeTags heap hd.tags v) (constructNode hd) = v ∧
      (∀ r w, r ≠ hd.tags →
        readTags (writeTags heap r w) (constructNode hd) =
          readTags heap (constructNode hd)) := by
  intro hd heap v
  refine ⟨rfl, rfl, rfl, ?_, ?_⟩
  · unfold readTags writeTags constructNode
    simp
  · intro r w hr
    unfold readTags writeTags constructNode
    simp [Ne.symm hr]

/-- Witness for C9's amended statement at a concrete heading and heap. -/
theorem C9_constructor_copies_amended_witness :
    (constructNode ⟨"A", 1, 0⟩).title = "A" ∧
    readTags (writeTags (fun _ => []) 0 ["x"]) (constructNode ⟨"A", 1, 0⟩)
      = ["x"] ∧
    readTags (writeTags (fun _ => []) 1 ["y"]) (constructNode ⟨"A", 1, 0⟩)
      = readTags (fun _ => []) (constructNode ⟨"A", 1, 0⟩) := by
  obtain ⟨h1, h2, h3, h4, h5⟩ :=
    C9_constructor_copies_amended ⟨"A", 1, 0⟩ (fun _ => []) ["x"]
  exact ⟨h1, h4, h5 1 ["y"] (by decide)⟩

end Orgmode
